import Mathlib

/-!
Verification of the availability engine of the Schedule Manager server
(`main.py`): the in-memory schedule store, the free-time resolver
`get_free_slots`, the multi-party intersector inside
`find_common_free_time`, and the presentation layer `meeting_message`.

The Python module keeps a global dict `SCHEDULES : Dict[str, List[Tuple[int,int]]]`.
We embed it as an insertion-ordered association list, and thread it explicitly
through every operation.  Python's `list.sort()` mutates the list object in
place, and `SCHEDULES.get(member, [])` returns the stored list itself, so
`get_free_slots` observably re-orders store entries; the embedding returns the
sorted list together with the computed free slots, and `find_common_free_time`
writes it back exactly where the Python interpreter would.

`find_common_free_time` indexes `all_free_slots[0]` unconditionally; on an
empty member list that raises `IndexError`.  The embedding returns `none`
for that error branch.
-/

namespace ScheduleManager

/-- `WORK_START = 9` from `main.py`. -/
def WORK_START : Int := 9

/-- `WORK_END = 18` from `main.py`. -/
def WORK_END : Int := 18

/-- The `SCHEDULES` dict: insertion-ordered map from person name to busy list. -/
abbrev Store := List (String × List (Int × Int))

/-- Dictionary lookup (`SCHEDULES[name]` / `name in SCHEDULES`): first entry
with the given key. -/
def storeGet : Store → String → Option (List (Int × Int))
  | [], _ => none
  | (k, v) :: rest, name => if k = name then some v else storeGet rest name

/-- `SCHEDULES.get(name, [])`. -/
def busyOf (st : Store) (name : String) : List (Int × Int) :=
  (storeGet st name).getD []

/-- Replace the value stored under `name` (used to model in-place mutation of
the list object held by the dict). -/
def storeSet (st : Store) (name : String) (v : List (Int × Int)) : Store :=
  st.map fun kv => if kv.1 = name then (kv.1, v) else kv

/-- The interval formatting used by both tools: `f"{s}:00–{e}:00"`. -/
def fmtInterval (p : Int × Int) : String :=
  toString p.1 ++ ":00–" ++ toString p.2 ++ ":00"

/-- `add_busy_time(name, start, end)`: create the entry if absent (a fresh
dict key is appended at the end, per Python dict insertion order), append
`(start, end)` to the person's list, and return the confirmation string. -/
def add_busy_time (st : Store) (name : String) (s e : Int) : Store × String :=
  let st' :=
    if (storeGet st name).isSome then
      storeSet st name (busyOf st name ++ [(s, e)])
    else
      st ++ [(name, [(s, e)])]
  (st', "Added busy time for " ++ name ++ ": " ++ fmtInterval (s, e))

/-- Python's `list.sort()` order on `(start, end)` tuples of ints:
lexicographic `≤`. -/
def pyLE (a b : Int × Int) : Bool :=
  a.1 < b.1 || (a.1 == b.1 && a.2 ≤ b.2)

/-- `busy.sort()`: sort in lexicographic order.  Python's sort is stable, but
all `pyLE`-ties are equal tuples (`pyLE` is antisymmetric), so every sorting
algorithm produces the same list; we use a structurally recursive one. -/
def sortBusy (busy : List (Int × Int)) : List (Int × Int) :=
  List.insertionSort (fun a b => pyLE a b = true) busy

/-- The loop of `get_free_slots`: walk the sorted busy list with a cursor
starting at `WORK_START`, emit `(cursor, start)` whenever a busy interval
starts strictly after the cursor, advance the cursor to `max cursor end`,
and finally emit `(cursor, WORK_END)` if the cursor is still before it. -/
def freeLoop : List (Int × Int) → Int → List (Int × Int)
  | [], current => if current < WORK_END then [(current, WORK_END)] else []
  | (s, e) :: rest, current =>
    if s > current then (current, s) :: freeLoop rest (max current e)
    else freeLoop rest (max current e)

/-- `get_free_slots(busy)`.  The first component is the busy list after the
in-place `busy.sort()` (the caller's list object is mutated); the second is
the returned free list. -/
def get_free_slots (busy : List (Int × Int)) : List (Int × Int) × List (Int × Int) :=
  let sorted := sortBusy busy
  (sorted, freeLoop sorted WORK_START)

/-- One step of the intersection: `(max(a_start,b_start), min(a_end,b_end))`
kept only when nonempty. -/
def pairInter (a b : Int × Int) : Option (Int × Int) :=
  if max a.1 b.1 < min a.2 b.2 then some (max a.1 b.1, min a.2 b.2) else none

/-- The inner double loop of `find_common_free_time`: outer over `common`,
inner over `slots`, appending each nonempty pairwise intersection. -/
def intersectLists (common slots : List (Int × Int)) : List (Int × Int) :=
  common.flatMap fun a => slots.filterMap fun b => pairInter a b

/-- The first loop of `find_common_free_time`: for each member look up the
busy list (`SCHEDULES.get(member, [])`), compute the free slots, and record
the in-place sort back into the store (only when the member has an entry:
an absent member yields a fresh `[]` whose sorting is unobservable). -/
def gatherFree : Store → List String → Store × List (List (Int × Int))
  | st, [] => (st, [])
  | st, m :: rest =>
    let busy := busyOf st m
    let res := get_free_slots busy
    let st' := if (storeGet st m).isSome then storeSet st m res.1 else st
    let next := gatherFree st' rest
    (next.1, res.2 :: next.2)

/-- The intersection phase of `find_common_free_time`: `common = all_free_slots[0]`
(`none` models the `IndexError` on an empty member list), then fold
`intersectLists` over the remaining free lists. -/
def common_free (st : Store) (members : List String) :
    Store × Option (List (Int × Int)) :=
  let gathered := gatherFree st members
  match gathered.2 with
  | [] => (gathered.1, none)
  | c0 :: rest => (gathered.1, some (rest.foldl intersectLists c0))

/-- `find_common_free_time(members)`: the common intervals formatted as
`f"{s}:00–{e}:00"` strings. -/
def find_common_free_time (st : Store) (members : List String) :
    Store × Option (List String) :=
  let res := common_free st members
  (res.1, res.2.map fun c => c.map fmtInterval)

/-- `meeting_message(members)`: formats the announcement from
`find_common_free_time`, or the fixed message when no slot is free. -/
def meeting_message (st : Store) (members : List String) : Store × Option String :=
  let res := find_common_free_time st members
  match res.2 with
  | none => (res.1, none)
  | some free_slots =>
    if free_slots.isEmpty then
      (res.1, some "No common free time found for all members today.")
    else
      (res.1, some ("All members (" ++ String.intercalate ", " members ++
        ") are available at the following times: " ++
        String.intercalate ", " free_slots ++
        ". Please confirm which slot works best."))

/-! ### Store lemmas -/

theorem storeGet_cons (k : String) (w : List (Int × Int)) (rest : Store) (m : String) :
    storeGet ((k, w) :: rest) m = if k = m then some w else storeGet rest m := rfl

theorem storeSet_cons (k : String) (w : List (Int × Int)) (rest : Store) (n : String)
    (v : List (Int × Int)) :
    storeSet ((k, w) :: rest) n v = (if k = n then (k, v) else (k, w)) :: storeSet rest n v := by
  simp only [storeSet, List.map_cons]

theorem storeGet_storeSet_self {st : Store} {n : String} (v : List (Int × Int))
    (h : (storeGet st n).isSome) : storeGet (storeSet st n v) n = some v := by
  induction st with
  | nil => simp [storeGet] at h
  | cons kv rest ih =>
    obtain ⟨k, w⟩ := kv
    rw [storeGet_cons] at h
    rw [storeSet_cons]
    by_cases hk : k = n
    · rw [if_pos hk, storeGet_cons, if_pos hk]
    · rw [if_neg hk] at h
      rw [if_neg hk, storeGet_cons, if_neg hk]
      exact ih h

theorem storeGet_storeSet_other {st : Store} {n m : String} (v : List (Int × Int))
    (h : m ≠ n) : storeGet (storeSet st n v) m = storeGet st m := by
  induction st with
  | nil => rfl
  | cons kv rest ih =>
    obtain ⟨k, w⟩ := kv
    rw [storeSet_cons, storeGet_cons]
    by_cases hk : k = n
    · have hkm : ¬k = m := fun hc => h (hc ▸ hk)
      rw [if_pos hk, storeGet_cons, if_neg hkm, if_neg hkm, ih]
    · rw [if_neg hk, storeGet_cons]
      by_cases hm : k = m
      · rw [if_pos hm, if_pos hm]
      · rw [if_neg hm, if_neg hm, ih]

theorem storeGet_storeSet_isSome (st : Store) (n m : String) (v : List (Int × Int)) :
    (storeGet (storeSet st n v) m).isSome = (storeGet st m).isSome := by
  induction st with
  | nil => rfl
  | cons kv rest ih =>
    obtain ⟨k, w⟩ := kv
    rw [storeSet_cons, storeGet_cons]
    by_cases hk : k = n
    · rw [if_pos hk, storeGet_cons]
      by_cases hm : k = m
      · rw [if_pos hm, if_pos hm]
        rfl
      · rw [if_neg hm, if_neg hm, ih]
    · rw [if_neg hk, storeGet_cons]
      by_cases hm : k = m
      · rw [if_pos hm, if_pos hm]
      · rw [if_neg hm, if_neg hm, ih]

theorem storeGet_append_self {st : Store} {n : String} (l : List (Int × Int))
    (h : storeGet st n = none) : storeGet (st ++ [(n, l)]) n = some l := by
  induction st with
  | nil => simp [storeGet]
  | cons kv rest ih =>
    obtain ⟨k, w⟩ := kv
    rw [storeGet_cons] at h
    rw [List.cons_append, storeGet_cons]
    by_cases hk : k = n
    · rw [if_pos hk] at h
      exact absurd h (by simp)
    · rw [if_neg hk] at h
      rw [if_neg hk]
      exact ih h

theorem storeGet_append_other {st : Store} {n m : String} (l : List (Int × Int))
    (h : m ≠ n) : storeGet (st ++ [(n, l)]) m = storeGet st m := by
  induction st with
  | nil =>
    have : ¬n = m := fun hc => h hc.symm
    simp [storeGet, this]
  | cons kv rest ih =>
    obtain ⟨k, w⟩ := kv
    rw [List.cons_append, storeGet_cons, storeGet_cons]
    by_cases hm : k = m
    · rw [if_pos hm, if_pos hm]
    · rw [if_neg hm, if_neg hm, ih]

/-! ### The sort: `busy.sort()` -/

theorem pyLE_iff (a b : Int × Int) :
    pyLE a b = true ↔ a.1 < b.1 ∨ (a.1 = b.1 ∧ a.2 ≤ b.2) := by
  simp [pyLE, Bool.or_eq_true, Bool.and_eq_true, decide_eq_true_eq, beq_iff_eq]

theorem pyLE_trans : ∀ a b c : Int × Int, pyLE a b = true → pyLE b c = true → pyLE a c = true := by
  intro a b c hab hbc
  rw [pyLE_iff] at hab hbc ⊢
  omega

theorem pyLE_total : ∀ a b : Int × Int, (pyLE a b || pyLE b a) = true := by
  intro a b
  rw [Bool.or_eq_true, pyLE_iff, pyLE_iff]
  omega

theorem pyLE_antisymm : ∀ a b : Int × Int, pyLE a b = true → pyLE b a = true → a = b := by
  intro a b hab hba
  rw [pyLE_iff] at hab hba
  have h1 : a.1 = b.1 := by omega
  have h2 : a.2 = b.2 := by omega
  exact Prod.ext h1 h2

theorem sortBusy_perm (l : List (Int × Int)) : (sortBusy l).Perm l :=
  List.perm_insertionSort _ l

theorem sortBusy_sorted (l : List (Int × Int)) :
    List.Pairwise (fun a b => pyLE a b = true) (sortBusy l) :=
  @List.sorted_insertionSort _ (fun a b => pyLE a b = true) _
    ⟨fun a b => by rw [← Bool.or_eq_true]; exact pyLE_total a b⟩
    ⟨fun a b c => pyLE_trans a b c⟩ l

theorem mem_sortBusy {l : List (Int × Int)} {p : Int × Int} :
    p ∈ sortBusy l ↔ p ∈ l :=
  (sortBusy_perm l).mem_iff

theorem sortBusy_eq_of_perm {l₁ l₂ : List (Int × Int)} (h : l₁.Perm l₂) :
    sortBusy l₁ = sortBusy l₂ := by
  have hperm : (sortBusy l₁).Perm (sortBusy l₂) :=
    ((sortBusy_perm l₁).trans h).trans (sortBusy_perm l₂).symm
  exact @List.eq_of_perm_of_sorted _ (fun a b => pyLE a b = true)
    ⟨fun a b => pyLE_antisymm a b⟩ _ _ hperm (sortBusy_sorted l₁) (sortBusy_sorted l₂)

/-! ### The resolver loop -/

theorem freeLoop_start_lt : ∀ (l : List (Int × Int)) (c : Int),
    ∀ p ∈ freeLoop l c, p.1 < p.2 := by
  intro l
  induction l with
  | nil =>
    intro c p hp
    simp only [freeLoop] at hp
    split at hp
    · rcases List.mem_singleton.mp hp with rfl
      assumption
    · simp at hp
  | cons q rest ih =>
    intro c p hp
    obtain ⟨s, e⟩ := q
    simp only [freeLoop] at hp
    split at hp
    · rcases List.mem_cons.mp hp with rfl | hp'
      · simpa using by omega
      · exact ih _ p hp'
    · exact ih _ p hp

theorem freeLoop_bounds : ∀ (l : List (Int × Int)) (c : Int),
    WORK_START ≤ c → (∀ p ∈ l, p.1 < p.2 ∧ p.2 ≤ WORK_END) →
    ∀ q ∈ freeLoop l c, WORK_START ≤ q.1 ∧ q.2 ≤ WORK_END := by
  intro l
  induction l with
  | nil =>
    intro c hc _ q hq
    simp only [freeLoop] at hq
    split at hq
    · rcases List.mem_singleton.mp hq with rfl
      exact ⟨hc, le_refl _⟩
    · simp at hq
  | cons p rest ih =>
    intro c hc hl q hq
    obtain ⟨s, e⟩ := p
    have hp := hl (s, e) (List.mem_cons_self _ _)
    have hrest : ∀ r ∈ rest, r.1 < r.2 ∧ r.2 ≤ WORK_END :=
      fun r hr => hl r (List.mem_cons_of_mem _ hr)
    simp only [freeLoop] at hq
    split at hq
    · rcases List.mem_cons.mp hq with rfl | hq'
      · exact ⟨hc, by simp at hp ⊢; omega⟩
      · exact ih (max c e) (le_trans hc (le_max_left _ _)) hrest q hq'
    · exact ih (max c e) (le_trans hc (le_max_left _ _)) hrest q hq

/-- Claim C4: with an empty member list, `find_common_free_time` has no defined
result: `all_free_slots[0]` indexes an empty list, so for every store the
embedding takes the error branch (`none`) and leaves the store untouched. -/
theorem find_common_free_time_empty_members (st : Store) :
    find_common_free_time st [] = (st, none) := rfl

/-- The four-call scenario store of claim C1, built from the empty store. -/
def scenarioStore : Store :=
  (add_busy_time (add_busy_time (add_busy_time
    (add_busy_time [] "Alice" 10 11).1 "Alice" 14 16).1 "Bob" 9 10).1 "Bob" 13 15).1

/-- Claim C1 counterexample: on the spec's four-call scenario the code returns
`["11:00–13:00", "16:00–18:00"]`, not the claimed `["10:00–13:00", "16:00–18:00"]`
(Alice is busy 10–11, so 10:00–11:00 cannot be common free time). -/
theorem scenario_result_ne_claimed :
    (find_common_free_time scenarioStore ["Alice", "Bob"]).2 = some ["11:00–13:00", "16:00–18:00"] ∧
    some ["11:00–13:00", "16:00–18:00"] ≠ some ["10:00–13:00", "16:00–18:00"] := by
  refine ⟨by decide, by decide⟩

/-- Claim C1 (amended): on the spec's four-call scenario,
`find_common_free_time(["Alice","Bob"])` returns exactly
`["11:00–13:00", "16:00–18:00"]`. -/
theorem scenario_result :
    (find_common_free_time scenarioStore ["Alice", "Bob"]).2 =
      some ["11:00–13:00", "16:00–18:00"] := by decide

/-! ### Unfolding lemmas for the tool pipeline -/

theorem get_free_slots_fst (b : List (Int × Int)) : (get_free_slots b).1 = sortBusy b := rfl

theorem get_free_slots_snd (b : List (Int × Int)) :
    (get_free_slots b).2 = freeLoop (sortBusy b) WORK_START := rfl

theorem get_free_slots_perm_eq {b₁ b₂ : List (Int × Int)} (h : b₁.Perm b₂) :
    (get_free_slots b₁).2 = (get_free_slots b₂).2 := by
  rw [get_free_slots_snd, get_free_slots_snd, sortBusy_eq_of_perm h]

theorem gatherFree_cons_fst (st : Store) (m : String) (rest : List String) :
    (gatherFree st (m :: rest)).1 =
      (gatherFree (if (storeGet st m).isSome then storeSet st m (get_free_slots (busyOf st m)).1
        else st) rest).1 := rfl

theorem gatherFree_cons_snd (st : Store) (m : String) (rest : List String) :
    (gatherFree st (m :: rest)).2 =
      (get_free_slots (busyOf st m)).2 ::
      (gatherFree (if (storeGet st m).isSome then storeSet st m (get_free_slots (busyOf st m)).1
        else st) rest).2 := rfl

theorem common_free_nil (st : Store) : common_free st [] = (st, none) := rfl

theorem common_free_cons_snd (st : Store) (m : String) (rest : List String) :
    (common_free st (m :: rest)).2 =
      some (((gatherFree (if (storeGet st m).isSome then
          storeSet st m (get_free_slots (busyOf st m)).1 else st) rest).2).foldl
        intersectLists (get_free_slots (busyOf st m)).2) := rfl

theorem common_free_fst (st : Store) (members : List String) :
    (common_free st members).1 = (gatherFree st members).1 := by
  unfold common_free
  rcases gatherFree st members with ⟨st', frees⟩
  cases frees <;> rfl

theorem find_common_free_time_fst (st : Store) (members : List String) :
    (find_common_free_time st members).1 = (common_free st members).1 := rfl

theorem find_common_free_time_snd (st : Store) (members : List String) :
    (find_common_free_time st members).2 =
      ((common_free st members).2).map (fun c => c.map fmtInterval) := rfl

/-! ### Claim C10: the frame of `add_busy_time` -/

/-- Claim C10: `add_busy_time(name, start, end)` is total on any integers, and
its frame is exact: afterwards `name`'s busy list is its previous value (empty
if absent) with `(start, end)` appended, and every other person's entry is
unchanged. -/
theorem add_busy_time_frame (st : Store) (name : String) (s e : Int) :
    storeGet (add_busy_time st name s e).1 name = some (busyOf st name ++ [(s, e)]) ∧
    ∀ other, other ≠ name → storeGet (add_busy_time st name s e).1 other = storeGet st other := by
  unfold add_busy_time
  by_cases h : (storeGet st name).isSome = true
  · simp only [h, if_true]
    exact ⟨storeGet_storeSet_self _ h, fun other ho => storeGet_storeSet_other _ ho⟩
  · simp only [h, if_false]
    have hnone : storeGet st name = none := Option.not_isSome_iff_eq_none.mp h
    have hb : busyOf st name = [] := by rw [busyOf, hnone]; rfl
    refine ⟨?_, fun other ho => storeGet_append_other _ ho⟩
    rw [hb, List.nil_append]
    exact storeGet_append_self _ hnone

/-- Witness for C10 at a concrete store: adding for an absent "Alice" appends a
fresh entry and leaves "Bob" untouched. -/
theorem add_busy_time_frame_witness :
    storeGet (add_busy_time [("Bob", [((1 : Int), 2)])] "Alice" 10 11).1 "Alice" =
      some [((10 : Int), 11)] ∧
    storeGet (add_busy_time [("Bob", [((1 : Int), 2)])] "Alice" 10 11).1 "Bob" =
      storeGet [("Bob", [((1 : Int), 2)])] "Bob" := by
  constructor
  · have h := (add_busy_time_frame [("Bob", [((1 : Int), 2)])] "Alice" 10 11).1
    simpa using h
  · exact (add_busy_time_frame [("Bob", [((1 : Int), 2)])] "Alice" 10 11).2 "Bob" (by decide)

/-! ### Claim C8: unknown person resolves to the full working day -/

/-- Claim C8: an empty busy list resolves to the single full-working-day slot,
and `find_common_free_time(["NewPerson"])` on any store with no entry for
"NewPerson" returns exactly `["9:00–18:00"]`. -/
theorem new_person_full_day (st : Store) (h : storeGet st "NewPerson" = none) :
    (get_free_slots []).2 = [(WORK_START, WORK_END)] ∧
    (find_common_free_time st ["NewPerson"]).2 = some ["9:00–18:00"] := by
  have hb : busyOf st "NewPerson" = [] := by rw [busyOf, h]; rfl
  refine ⟨by decide, ?_⟩
  rw [find_common_free_time_snd]
  have hsnd : (common_free st ["NewPerson"]).2 = some [((9 : Int), 18)] := by
    rw [common_free_cons_snd, hb]
    rfl
  rw [hsnd]
  rfl

/-- Witness for C8 at the empty store. -/
theorem new_person_full_day_witness :
    (get_free_slots []).2 = [(WORK_START, WORK_END)] ∧
    (find_common_free_time [] ["NewPerson"]).2 = some ["9:00–18:00"] :=
  new_person_full_day [] rfl

/-! ### Claim C2: the empty-intersection result -/

/-- Claim C2 counterexample: with Alice busy the whole day, the intersection is
empty and the tool returns the empty sequence, not a single-element
no-common-free-time message (that message belongs to `meeting_message`). -/
theorem empty_intersection_returns_nil :
    (find_common_free_time [("A", [((9 : Int), 18)])] ["A"]).2 = some [] ∧
    some ([] : List String) ≠ some ["No common free time found for all members today."] :=
  ⟨by decide, by decide⟩

theorem common_free_isSome (st : Store) {members : List String} (h : members ≠ []) :
    ((common_free st members).2).isSome = true := by
  cases members with
  | nil => exact absurd rfl h
  | cons m rest => rw [common_free_cons_snd]; rfl

theorem meeting_message_of_nil (st : Store) (members : List String)
    (h : (find_common_free_time st members).2 = some []) :
    (meeting_message st members).2 =
      some "No common free time found for all members today." := by
  unfold meeting_message
  rcases hf : find_common_free_time st members with ⟨st', r⟩
  rw [hf] at h
  replace h : r = some [] := h
  subst h
  rfl

/-- Claim C2 (amended): on a non-empty member list no error occurs, and when
the folded intersection is empty `find_common_free_time` returns the **empty**
sequence; the single no-common-free-time message is produced by
`meeting_message` instead. -/
theorem empty_intersection_result (st : Store) (members : List String) (h : members ≠ []) :
    ((common_free st members).2).isSome = true ∧
    ((common_free st members).2 = some [] →
      (find_common_free_time st members).2 = some [] ∧
      (meeting_message st members).2 =
        some "No common free time found for all members today.") := by
  refine ⟨common_free_isSome st h, fun hempty => ?_⟩
  have hf : (find_common_free_time st members).2 = some [] := by
    rw [find_common_free_time_snd, hempty]
    rfl
  exact ⟨hf, meeting_message_of_nil st members hf⟩

/-- Witness for C2 on a store where the single member is busy all day. -/
theorem empty_intersection_result_witness :
    ((common_free [("A", [((9 : Int), 18)])] ["A"]).2).isSome = true ∧
    (find_common_free_time [("A", [((9 : Int), 18)])] ["A"]).2 = some [] ∧
    (meeting_message [("A", [((9 : Int), 18)])] ["A"]).2 =
      some "No common free time found for all members today." :=
  ⟨(empty_intersection_result [("A", [((9 : Int), 18)])] ["A"] (by decide)).1,
   ((empty_intersection_result [("A", [((9 : Int), 18)])] ["A"] (by decide)).2 (by decide)).1,
   ((empty_intersection_result [("A", [((9 : Int), 18)])] ["A"] (by decide)).2 (by decide)).2⟩

/-! ### Claim C3: `find_common_free_time` and store mutation -/

/-- Claim C3 counterexample: `busy.sort()` sorts the list object in place, and
`SCHEDULES.get(member, [])` hands `get_free_slots` the stored list itself, so
the query re-orders the store entry: neither `get_free_slots` nor
`find_common_free_time` leaves its input untouched element-for-element. -/
theorem find_common_free_time_mutates :
    (get_free_slots [(((14 : Int)), (16 : Int)), (((10 : Int)), (11 : Int))]).1 ≠
      [(((14 : Int)), (16 : Int)), (((10 : Int)), (11 : Int))] ∧
    (find_common_free_time [("Alice", [(((14 : Int)), (16 : Int)), (((10 : Int)), (11 : Int))])]
        ["Alice"]).1 ≠
      [("Alice", [(((14 : Int)), (16 : Int)), (((10 : Int)), (11 : Int))])] :=
  ⟨by decide, by decide⟩

theorem gatherFree_store_stable : ∀ (members : List String) (st : Store) (name : String),
    (storeGet (gatherFree st members).1 name).isSome = (storeGet st name).isSome ∧
    (busyOf (gatherFree st members).1 name).Perm (busyOf st name) := by
  intro members
  induction members with
  | nil => exact fun st name => ⟨rfl, List.Perm.refl _⟩
  | cons m rest ih =>
    intro st name
    rw [gatherFree_cons_fst]
    by_cases hp : (storeGet st m).isSome = true
    · rw [if_pos hp]
      have hstep1 : (storeGet (storeSet st m (get_free_slots (busyOf st m)).1) name).isSome =
          (storeGet st name).isSome := storeGet_storeSet_isSome st m name _
      have hstep2 : (busyOf (storeSet st m (get_free_slots (busyOf st m)).1) name).Perm
          (busyOf st name) := by
        by_cases hn : name = m
        · subst hn
          have := @storeGet_storeSet_self st name (get_free_slots (busyOf st name)).1 hp
          rw [busyOf, this, get_free_slots_fst]
          exact sortBusy_perm _
        · rw [busyOf, storeGet_storeSet_other _ hn, busyOf]
      obtain ⟨ih1, ih2⟩ := ih (storeSet st m (get_free_slots (busyOf st m)).1) name
      exact ⟨ih1.trans hstep1, ih2.trans hstep2⟩
    · rw [if_neg hp]
      exact ih st name

/-- Claim C3 (amended): after `find_common_free_time` each person's stored
busy list is a permutation (the sorted rearrangement) of its previous value —
entry presence is preserved, no interval is added or dropped — and the free
slots the Resolver computes from the mutated entry are identical, so query
results are unaffected. -/
theorem find_common_free_time_store_perm (st : Store) (members : List String) (name : String) :
    (storeGet (find_common_free_time st members).1 name).isSome =
      (storeGet st name).isSome ∧
    (busyOf (find_common_free_time st members).1 name).Perm (busyOf st name) ∧
    (get_free_slots (busyOf (find_common_free_time st members).1 name)).2 =
      (get_free_slots (busyOf st name)).2 := by
  have hfst : (find_common_free_time st members).1 = (gatherFree st members).1 := by
    rw [find_common_free_time_fst, common_free_fst]
  obtain ⟨h1, h2⟩ := gatherFree_store_stable members st name
  rw [hfst]
  exact ⟨h1, h2, get_free_slots_perm_eq h2⟩

/-! ### Claim C5: the resolver never emits degenerate intervals -/

/-- Claim C5: for every busy list, malformed pairs included, each emitted free
interval has `start < end`; and when every busy interval is clamped inside the
working day, every emitted interval lies within `[WORK_START, WORK_END]`. -/
theorem resolver_output_sound (B : List (Int × Int)) :
    (∀ p ∈ (get_free_slots B).2, p.1 < p.2) ∧
    ((∀ p ∈ B, WORK_START ≤ p.1 ∧ p.1 < p.2 ∧ p.2 ≤ WORK_END) →
      ∀ p ∈ (get_free_slots B).2, WORK_START ≤ p.1 ∧ p.2 ≤ WORK_END) := by
  constructor
  · rw [get_free_slots_snd]
    exact freeLoop_start_lt _ _
  · intro hB
    rw [get_free_slots_snd]
    refine freeLoop_bounds _ _ (le_refl _) ?_
    intro p hp
    have h := hB p (mem_sortBusy.mp hp)
    exact ⟨h.2.1, h.2.2⟩

/-- Witness for C5 on a concrete clamped busy list. -/
theorem resolver_output_sound_witness :
    (∀ p ∈ (get_free_slots [(((10 : Int)), (12 : Int))]).2, p.1 < p.2) ∧
    (∀ p ∈ (get_free_slots [(((10 : Int)), (12 : Int))]).2,
      WORK_START ≤ p.1 ∧ p.2 ≤ WORK_END) :=
  ⟨(resolver_output_sound [(((10 : Int)), (12 : Int))]).1,
   (resolver_output_sound [(((10 : Int)), (12 : Int))]).2 (by decide)⟩

/-! ### Claim C6: the FreeList invariant of the resolver output -/

/-- Claim C6 counterexample: the interval `(20, 24)` is a well-formed Interval
(`0 ≤ 20 < 24 ≤ 24`), yet the resolver emits the free slot `(9, 20)`, whose
end `20` lies beyond `WORK_END = 18`: the output is not always a subset of the
working day. -/
theorem resolver_escapes_working_day :
    ((0 : Int) ≤ 20 ∧ (20 : Int) < 24 ∧ (24 : Int) ≤ 24) ∧
    (get_free_slots [(((20 : Int)), (24 : Int))]).2 = [(((9 : Int)), (20 : Int))] ∧
    ¬((20 : Int) ≤ WORK_END) :=
  ⟨by decide, by decide, by decide⟩

theorem freeLoop_pairwise : ∀ (l : List (Int × Int)) (c : Int),
    (∀ p ∈ l, p.1 < p.2) →
    List.Pairwise (fun a b => a.2 < b.1) (freeLoop l c) ∧
    ∀ q ∈ freeLoop l c, c ≤ q.1 := by
  intro l
  induction l with
  | nil =>
    intro c _
    constructor
    · simp only [freeLoop]
      split
      · exact List.pairwise_singleton _ _
      · exact List.Pairwise.nil
    · intro q hq
      simp only [freeLoop] at hq
      split at hq
      · rcases List.mem_singleton.mp hq with rfl
        exact le_refl _
      · simp at hq
  | cons p rest ih =>
    intro c hl
    obtain ⟨s, e⟩ := p
    have hse : s < e := by simpa using hl (s, e) (List.mem_cons_self _ _)
    have hrest : ∀ r ∈ rest, r.1 < r.2 := fun r hr => hl r (List.mem_cons_of_mem _ hr)
    obtain ⟨ihp, ihm⟩ := ih (max c e) hrest
    constructor
    · simp only [freeLoop]
      split
      · refine List.Pairwise.cons ?_ ihp
        intro b hb
        have h1 := ihm b hb
        simp only
        have h2 : e ≤ max c e := le_max_right _ _
        omega
      · exact ihp
    · intro q hq
      simp only [freeLoop] at hq
      split at hq
      · rcases List.mem_cons.mp hq with rfl | hq'
        · exact le_refl _
        · exact le_trans (le_max_left c e) (ihm q hq')
      · exact le_trans (le_max_left c e) (ihm q hq)

/-- Claim C6 (amended): for every busy list of well-formed Intervals
(`0 ≤ start < end ≤ 24`) the resolver output satisfies the order part of the
FreeList invariant — nonempty intervals, strictly separated (`a.end < b.start`
for consecutive pairs, hence non-overlapping) and sorted by start — while the
subset-of-working-day part additionally requires the busy intervals to lie
inside `[WORK_START, WORK_END]` (the reference does not clamp). -/
theorem resolver_freelist_invariant (B : List (Int × Int))
    (hwf : ∀ p ∈ B, 0 ≤ p.1 ∧ p.1 < p.2 ∧ p.2 ≤ 24) :
    (∀ p ∈ (get_free_slots B).2, p.1 < p.2) ∧
    List.Pairwise (fun a b => a.2 < b.1) (get_free_slots B).2 ∧
    List.Pairwise (fun a b => a.1 < b.1) (get_free_slots B).2 ∧
    ((∀ p ∈ B, WORK_START ≤ p.1 ∧ p.2 ≤ WORK_END) →
      ∀ p ∈ (get_free_slots B).2, WORK_START ≤ p.1 ∧ p.2 ≤ WORK_END) := by
  have hlt : ∀ p ∈ (get_free_slots B).2, p.1 < p.2 := by
    rw [get_free_slots_snd]
    exact freeLoop_start_lt _ _
  have hwf' : ∀ p ∈ sortBusy B, p.1 < p.2 := fun p hp => (hwf p (mem_sortBusy.mp hp)).2.1
  have hpw : List.Pairwise (fun a b => a.2 < b.1) (get_free_slots B).2 := by
    rw [get_free_slots_snd]
    exact (freeLoop_pairwise _ _ hwf').1
  refine ⟨hlt, hpw, ?_, ?_⟩
  · exact List.Pairwise.imp_of_mem (fun ha _ hab => lt_trans (hlt _ ha) hab) hpw
  · intro hcl
    rw [get_free_slots_snd]
    refine freeLoop_bounds _ _ (le_refl _) ?_
    intro p hp
    have h1 := hwf p (mem_sortBusy.mp hp)
    have h2 := hcl p (mem_sortBusy.mp hp)
    exact ⟨h1.2.1, h2.2⟩

/-- Witness for C6 on a concrete well-formed, clamped busy list. -/
theorem resolver_freelist_invariant_witness :
    (∀ p ∈ (get_free_slots [(((10 : Int)), (12 : Int)), (((15 : Int)), (16 : Int))]).2,
      p.1 < p.2) ∧
    List.Pairwise (fun a b => a.2 < b.1)
      (get_free_slots [(((10 : Int)), (12 : Int)), (((15 : Int)), (16 : Int))]).2 ∧
    List.Pairwise (fun a b => a.1 < b.1)
      (get_free_slots [(((10 : Int)), (12 : Int)), (((15 : Int)), (16 : Int))]).2 ∧
    (∀ p ∈ (get_free_slots [(((10 : Int)), (12 : Int)), (((15 : Int)), (16 : Int))]).2,
      WORK_START ≤ p.1 ∧ p.2 ≤ WORK_END) := by
  obtain ⟨h1, h2, h3, h4⟩ :=
    resolver_freelist_invariant [(((10 : Int)), (12 : Int)), (((15 : Int)), (16 : Int))]
      (by decide)
  exact ⟨h1, h2, h3, h4 (by decide)⟩

/-! ### Claim C7: the intersector is order-independent -/

theorem pairInter_eq_some {a b p : Int × Int} :
    pairInter a b = some p ↔
      max a.1 b.1 < min a.2 b.2 ∧ p = (max a.1 b.1, min a.2 b.2) := by
  unfold pairInter
  split
  case isTrue h => simp [h, eq_comm]
  case isFalse h => simp [h]

theorem mem_intersectLists {A B : List (Int × Int)} {p : Int × Int} :
    p ∈ intersectLists A B ↔
      ∃ a ∈ A, ∃ b ∈ B, max a.1 b.1 < min a.2 b.2 ∧ p = (max a.1 b.1, min a.2 b.2) := by
  unfold intersectLists
  rw [List.mem_flatMap]
  constructor
  · rintro ⟨a, ha, hp⟩
    rw [List.mem_filterMap] at hp
    obtain ⟨b, hb, hsome⟩ := hp
    rw [pairInter_eq_some] at hsome
    exact ⟨a, ha, b, hb, hsome⟩
  · rintro ⟨a, ha, b, hb, hlt, hp⟩
    exact ⟨a, ha, List.mem_filterMap.mpr ⟨b, hb, pairInter_eq_some.mpr ⟨hlt, hp⟩⟩⟩

theorem intersectLists_cons (a : Int × Int) (A B : List (Int × Int)) :
    intersectLists (a :: A) B =
      (B.filterMap fun b => pairInter a b) ++ intersectLists A B := by
  unfold intersectLists
  rw [List.flatMap_cons]

theorem intersectLists_nil_right (A : List (Int × Int)) : intersectLists A [] = [] := by
  induction A with
  | nil => rfl
  | cons a A ih => rw [intersectLists_cons, ih]; rfl

/-- The FreeList invariant of the spec: nonempty intervals, sorted and
non-overlapping (each interval ends no later than the next one starts). -/
def InvFree (l : List (Int × Int)) : Prop :=
  (∀ p ∈ l, p.1 < p.2) ∧ List.Pairwise (fun a b => a.2 ≤ b.1) l

instance (l : List (Int × Int)) : Decidable (InvFree l) := by
  unfold InvFree
  infer_instance

theorem intersectLists_nonempty {A B : List (Int × Int)} :
    ∀ p ∈ intersectLists A B, p.1 < p.2 := by
  intro p hp
  obtain ⟨a, _, b, _, hlt, hp⟩ := mem_intersectLists.mp hp
  subst hp
  exact hlt

theorem intersectLists_pairwise : ∀ {A : List (Int × Int)} (B : List (Int × Int)),
    InvFree A → InvFree B →
    List.Pairwise (fun a b => a.2 ≤ b.1) (intersectLists A B) := by
  intro A
  induction A with
  | nil => exact fun B _ _ => List.Pairwise.nil
  | cons a A ih =>
    intro B hA hB
    obtain ⟨hAne, hApw⟩ := hA
    obtain ⟨hcons, htail⟩ := List.pairwise_cons.mp hApw
    rw [intersectLists_cons, List.pairwise_append]
    refine ⟨?_, ih B ⟨fun p hp => hAne p (List.mem_cons_of_mem _ hp), htail⟩ hB, ?_⟩
    · rw [List.pairwise_filterMap]
      refine hB.2.imp ?_
      intro b b' hbb' u hu v hv
      rw [Option.mem_def, pairInter_eq_some] at hu hv
      obtain ⟨_, hu2⟩ := hu
      obtain ⟨_, hv2⟩ := hv
      subst hu2
      subst hv2
      dsimp only
      omega
    · intro x hx y hy
      rw [List.mem_filterMap] at hx
      obtain ⟨b, hb, hx⟩ := hx
      rw [pairInter_eq_some] at hx
      obtain ⟨_, hx2⟩ := hx
      obtain ⟨a', ha', b', hb', hlt', hy2⟩ := mem_intersectLists.mp hy
      have haa' : a.2 ≤ a'.1 := hcons a' ha'
      subst hx2
      subst hy2
      dsimp only
      omega

theorem InvFree_intersectLists {A B : List (Int × Int)} (hA : InvFree A) (hB : InvFree B) :
    InvFree (intersectLists A B) :=
  ⟨intersectLists_nonempty, intersectLists_pairwise B hA hB⟩

theorem pairwise_start_of_inv {l : List (Int × Int)} (h : InvFree l) :
    List.Pairwise (fun a b => a.1 < b.1) l :=
  List.Pairwise.imp_of_mem (fun ha _ hab => lt_of_lt_of_le (h.1 _ ha) hab) h.2

theorem eq_of_sorted_of_mem_iff : ∀ (l₁ l₂ : List (Int × Int)),
    List.Pairwise (fun a b => a.1 < b.1) l₁ →
    List.Pairwise (fun a b => a.1 < b.1) l₂ →
    (∀ p, p ∈ l₁ ↔ p ∈ l₂) → l₁ = l₂ := by
  intro l₁
  induction l₁ with
  | nil =>
    intro l₂ _ _ hmem
    cases l₂ with
    | nil => rfl
    | cons q t₂ => exact absurd ((hmem q).mpr (List.mem_cons_self _ _)) (List.not_mem_nil q)
  | cons p t₁ ih =>
    intro l₂ h₁ h₂ hmem
    cases l₂ with
    | nil => exact absurd ((hmem p).mp (List.mem_cons_self _ _)) (List.not_mem_nil p)
    | cons q t₂ =>
      obtain ⟨hp1, ht1⟩ := List.pairwise_cons.mp h₁
      obtain ⟨hq2, ht2⟩ := List.pairwise_cons.mp h₂
      have hpq : p = q := by
        have hpin : p ∈ q :: t₂ := (hmem p).mp (List.mem_cons_self _ _)
        have hqin : q ∈ p :: t₁ := (hmem q).mpr (List.mem_cons_self _ _)
        rcases List.mem_cons.mp hpin with h | hpt₂
        · exact h
        · rcases List.mem_cons.mp hqin with h' | hqt₁
          · exact h'.symm
          · exact (lt_irrefl _ (lt_trans (hq2 p hpt₂) (hp1 q hqt₁))).elim
      subst hpq
      have htmem : ∀ x, x ∈ t₁ ↔ x ∈ t₂ := by
        intro x
        constructor
        · intro hx
          rcases List.mem_cons.mp ((hmem x).mp (List.mem_cons_of_mem _ hx)) with h | h
          · exact (lt_irrefl p.1 (h ▸ hp1 x hx)).elim
          · exact h
        · intro hx
          rcases List.mem_cons.mp ((hmem x).mpr (List.mem_cons_of_mem _ hx)) with h | h
          · exact (lt_irrefl p.1 (h ▸ hq2 x hx)).elim
          · exact h
      rw [ih t₂ ht1 ht2 htmem]

theorem mem_inter_inter {A B C : List (Int × Int)} {p : Int × Int} :
    p ∈ intersectLists (intersectLists A B) C ↔
      ∃ a ∈ A, ∃ b ∈ B, ∃ c ∈ C,
        max (max a.1 b.1) c.1 < min (min a.2 b.2) c.2 ∧
        p = (max (max a.1 b.1) c.1, min (min a.2 b.2) c.2) := by
  rw [mem_intersectLists]
  constructor
  · rintro ⟨ab, hab, c, hc, hlt, hp⟩
    obtain ⟨a, ha, b, hb, hlt', hab2⟩ := mem_intersectLists.mp hab
    subst hab2
    exact ⟨a, ha, b, hb, c, hc, hlt, hp⟩
  · rintro ⟨a, ha, b, hb, c, hc, hlt, hp⟩
    refine ⟨(max a.1 b.1, min a.2 b.2), mem_intersectLists.mpr ⟨a, ha, b, hb, ?_, rfl⟩,
      c, hc, hlt, hp⟩
    omega

/-- Claim C7: for FreeLists `A`, `B`, `C` satisfying the FreeList invariant,
the left-to-right pairwise fold of `[A, B, C]` equals the fold of `[C, B, A]`:
the intersector is order-independent. -/
theorem intersector_order_independent (A B C : List (Int × Int))
    (hA : InvFree A) (hB : InvFree B) (hC : InvFree C) :
    [B, C].foldl intersectLists A = [B, A].foldl intersectLists C := by
  have hL : [B, C].foldl intersectLists A = intersectLists (intersectLists A B) C := rfl
  have hR : [B, A].foldl intersectLists C = intersectLists (intersectLists C B) A := rfl
  rw [hL, hR]
  apply eq_of_sorted_of_mem_iff
  · exact pairwise_start_of_inv (InvFree_intersectLists (InvFree_intersectLists hA hB) hC)
  · exact pairwise_start_of_inv (InvFree_intersectLists (InvFree_intersectLists hC hB) hA)
  · intro p
    rw [mem_inter_inter, mem_inter_inter]
    constructor
    · rintro ⟨a, ha, b, hb, c, hc, hlt, hp⟩
      subst hp
      refine ⟨c, hc, b, hb, a, ha, by omega, ?_⟩
      have h1 : max (max a.1 b.1) c.1 = max (max c.1 b.1) a.1 := by omega
      have h2 : min (min a.2 b.2) c.2 = min (min c.2 b.2) a.2 := by omega
      rw [h1, h2]
    · rintro ⟨c, hc, b, hb, a, ha, hlt, hp⟩
      subst hp
      refine ⟨a, ha, b, hb, c, hc, by omega, ?_⟩
      have h1 : max (max c.1 b.1) a.1 = max (max a.1 b.1) c.1 := by omega
      have h2 : min (min c.2 b.2) a.2 = min (min a.2 b.2) c.2 := by omega
      rw [h1, h2]

/-- Witness for C7 on three concrete FreeLists. -/
theorem intersector_order_independent_witness :
    [[(((11 : Int)), (14 : Int))],
     [(((10 : Int)), (13 : Int)), (((15 : Int)), (18 : Int))]].foldl intersectLists
      [(((9 : Int)), (12 : Int))] =
    [[(((11 : Int)), (14 : Int))],
     [(((9 : Int)), (12 : Int))]].foldl intersectLists
      [(((10 : Int)), (13 : Int)), (((15 : Int)), (18 : Int))] :=
  intersector_order_independent [(((9 : Int)), (12 : Int))] [(((11 : Int)), (14 : Int))]
    [(((10 : Int)), (13 : Int)), (((15 : Int)), (18 : Int))]
    (by decide) (by decide) (by decide)

/-! ### Claim C9: a participant busy for the whole working day -/

/-- Claim C9 counterexample: a member whose busy list contains the
full-working-day interval `(9, 18)` **plus** an interval past `WORK_END`
still gets the free slot `(18, 20)`, so the common intersection is not empty
and `meeting_message` announces availability instead of the fixed message. -/
theorem full_day_busy_counterexample :
    (((9 : Int), (18 : Int)) ∈ busyOf [("A", [((9 : Int), 18), ((20 : Int), 22)])] "A") ∧
    (find_common_free_time [("A", [((9 : Int), 18), ((20 : Int), 22)])] ["A"]).2 =
      some ["18:00–20:00"] ∧
    (meeting_message [("A", [((9 : Int), 18), ((20 : Int), 22)])] ["A"]).2 ≠
      some "No common free time found for all members today." :=
  ⟨by decide, by decide, by decide⟩

theorem freeLoop_skip_prefix : ∀ (l₁ t : List (Int × Int)) (c : Int),
    WORK_START ≤ c → (∀ p ∈ l₁, p.1 ≤ WORK_START) →
    ∃ c', c ≤ c' ∧ freeLoop (l₁ ++ t) c = freeLoop t c' := by
  intro l₁
  induction l₁ with
  | nil => exact fun t c hc _ => ⟨c, le_refl _, rfl⟩
  | cons p rest ih =>
    intro t c hc hl
    obtain ⟨s, e⟩ := p
    have hs : s ≤ WORK_START := by simpa using hl (s, e) (List.mem_cons_self _ _)
    have hns : ¬s > c := by omega
    obtain ⟨c', hc', heq⟩ := ih t (max c e) (le_trans hc (le_max_left _ _))
      (fun q hq => hl q (List.mem_cons_of_mem _ hq))
    refine ⟨c', le_trans (le_max_left c e) hc', ?_⟩
    rw [List.cons_append]
    simp only [freeLoop]
    rw [if_neg hns]
    exact heq

theorem freeLoop_done : ∀ (l : List (Int × Int)) (c : Int),
    WORK_END ≤ c → (∀ p ∈ l, p.1 < WORK_END) → freeLoop l c = [] := by
  intro l
  induction l with
  | nil =>
    intro c hc _
    simp only [freeLoop]
    rw [if_neg (by omega)]
  | cons p rest ih =>
    intro c hc hl
    obtain ⟨s, e⟩ := p
    have hs : s < WORK_END := by simpa using hl (s, e) (List.mem_cons_self _ _)
    simp only [freeLoop]
    rw [if_neg (by omega)]
    exact ih (max c e) (le_trans hc (le_max_left _ _))
      (fun q hq => hl q (List.mem_cons_of_mem _ hq))

/-- A busy list containing the whole working day, with all its intervals
well-formed and inside the working day, resolves to no free slot at all. -/
theorem get_free_slots_full_day {busy : List (Int × Int)}
    (hfull : ((WORK_START, WORK_END) : Int × Int) ∈ busy)
    (hclamp : ∀ p ∈ busy, WORK_START ≤ p.1 ∧ p.1 < p.2 ∧ p.2 ≤ WORK_END) :
    (get_free_slots busy).2 = [] := by
  rw [get_free_slots_snd]
  have hmem : ((WORK_START, WORK_END) : Int × Int) ∈ sortBusy busy := mem_sortBusy.mpr hfull
  obtain ⟨l₁, l₂, hsplit⟩ := List.append_of_mem hmem
  have hsorted := sortBusy_sorted busy
  rw [hsplit] at hsorted
  rw [List.pairwise_append] at hsorted
  obtain ⟨_, _, hcross⟩ := hsorted
  have hl₁ : ∀ p ∈ l₁, p.1 ≤ WORK_START := by
    intro p hp
    have h1 := hcross p hp (WORK_START, WORK_END) (List.mem_cons_self _ _)
    rw [pyLE_iff] at h1
    dsimp only at h1
    omega
  rw [hsplit]
  obtain ⟨c', hc', heq⟩ :=
    freeLoop_skip_prefix l₁ ((WORK_START, WORK_END) :: l₂) WORK_START (le_refl _) hl₁
  rw [heq]
  simp only [freeLoop]
  rw [if_neg (by omega)]
  apply freeLoop_done
  · exact le_max_right _ _
  · intro p hp
    have hin : p ∈ sortBusy busy := by
      rw [hsplit]
      exact List.mem_append_right _ (List.mem_cons_of_mem _ hp)
    have := hclamp p (mem_sortBusy.mp hin)
    omega

theorem foldl_intersect_of_mem_nil : ∀ (l : List (List (Int × Int))) (c0 : List (Int × Int)),
    (c0 = [] ∨ [] ∈ l) → l.foldl intersectLists c0 = [] := by
  intro l
  induction l with
  | nil =>
    rintro c0 (rfl | h)
    · rfl
    · simp at h
  | cons s l ih =>
    rintro c0 (rfl | h)
    · rw [List.foldl_cons]
      exact ih _ (Or.inl rfl)
    · rcases List.mem_cons.mp h with heq | h'
      · rw [List.foldl_cons, ← heq, intersectLists_nil_right]
        exact ih _ (Or.inl rfl)
      · rw [List.foldl_cons]
        exact ih _ (Or.inr h')

theorem gatherFree_mem : ∀ (members : List String) (st : Store) (m : String),
    m ∈ members →
    ∃ b, b.Perm (busyOf st m) ∧ (get_free_slots b).2 ∈ (gatherFree st members).2 := by
  intro members
  induction members with
  | nil => exact fun st m h => absurd h (List.not_mem_nil m)
  | cons m0 rest ih =>
    intro st m h
    rw [gatherFree_cons_snd]
    rcases List.mem_cons.mp h with rfl | h'
    · exact ⟨busyOf st m, List.Perm.refl _, List.mem_cons_self _ _⟩
    · obtain ⟨b, hb, hmem⟩ :=
        ih (if (storeGet st m0).isSome then storeSet st m0 (get_free_slots (busyOf st m0)).1
          else st) m h'
      have hperm : (busyOf (if (storeGet st m0).isSome then
          storeSet st m0 (get_free_slots (busyOf st m0)).1 else st) m).Perm (busyOf st m) := by
        by_cases hp : (storeGet st m0).isSome = true
        · rw [if_pos hp]
          by_cases hm : m = m0
          · subst hm
            rw [busyOf, storeGet_storeSet_self _ hp, get_free_slots_fst]
            exact sortBusy_perm _
          · rw [busyOf, storeGet_storeSet_other _ hm, busyOf]
        · rw [if_neg hp]
      exact ⟨b, hb.trans hperm, List.mem_cons_of_mem _ hmem⟩

/-- Claim C9 (amended): for every members sequence containing a participant
whose busy list includes the full-working-day interval `(WORK_START, WORK_END)`
and whose busy intervals all lie clamped inside the working day, the common
intersection is empty and `meeting_message` returns the fixed
no-common-free-time message.  (Without the clamping condition the claim fails:
see the counterexample with a busy interval past `WORK_END`.) -/
theorem full_day_busy_blocks (st : Store) (members : List String) (m : String)
    (hm : m ∈ members)
    (hfull : ((WORK_START, WORK_END) : Int × Int) ∈ busyOf st m)
    (hclamp : ∀ p ∈ busyOf st m, WORK_START ≤ p.1 ∧ p.1 < p.2 ∧ p.2 ≤ WORK_END) :
    (find_common_free_time st members).2 = some [] ∧
    (meeting_message st members).2 =
      some "No common free time found for all members today." := by
  obtain ⟨b, hb, hmem⟩ := gatherFree_mem members st m hm
  have hbfull : ((WORK_START, WORK_END) : Int × Int) ∈ b := hb.mem_iff.mpr hfull
  have hbclamp : ∀ p ∈ b, WORK_START ≤ p.1 ∧ p.1 < p.2 ∧ p.2 ≤ WORK_END :=
    fun p hp => hclamp p (hb.mem_iff.mp hp)
  have hempty : (get_free_slots b).2 = [] := get_free_slots_full_day hbfull hbclamp
  rw [hempty] at hmem
  cases members with
  | nil => exact absurd hm (List.not_mem_nil m)
  | cons m0 rest =>
    have hcf : (common_free st (m0 :: rest)).2 = some [] := by
      rw [common_free_cons_snd]
      congr 1
      apply foldl_intersect_of_mem_nil
      rw [gatherFree_cons_snd] at hmem
      rcases List.mem_cons.mp hmem with heq | h'
      · exact Or.inl heq.symm
      · exact Or.inr h'
    have hf : (find_common_free_time st (m0 :: rest)).2 = some [] := by
      rw [find_common_free_time_snd, hcf]
      rfl
    exact ⟨hf, meeting_message_of_nil _ _ hf⟩

/-- Witness for C9 on a member busy exactly for the whole working day. -/
theorem full_day_busy_blocks_witness :
    (find_common_free_time [("B", [((9 : Int), 18)])] ["B"]).2 = some [] ∧
    (meeting_message [("B", [((9 : Int), 18)])] ["B"]).2 =
      some "No common free time found for all members today." :=
  full_day_busy_blocks [("B", [((9 : Int), 18)])] ["B"] "B"
    (by decide) (by decide) (by decide)

end ScheduleManager
